import Mathlib

/-!
Shallow embedding of the rust-log-mdc crate (src/lib.rs and src/global.rs).

The thread-local store `MDC: RefCell<HashMap<String, String>>` is modelled
as an association list with unique keys; the HashMap primitives used by the
code (`get`, `insert`, `remove`, `clear`, `extend`, iteration) become the
list functions below. Each public operation of src/lib.rs is a state
transformer on that map. The global store of src/global.rs wraps the same
map in a lock that may be poisoned; an operation on a poisoned lock calls
`unwrap` on an `Err` and panics, modelled as returning `none`.
-/

namespace LogMdc

/-- Backing map of the MDC: association list with at most one entry per key,
modelling `HashMap<String, String>`. -/
abbrev Mdc := List (String × String)

/-- Model of `HashMap::get`: value of the first entry whose key matches. -/
def mget (k : String) (s : Mdc) : Option String :=
  match s with
  | [] => none
  | e :: rest => if e.1 = k then some e.2 else mget k rest

/-- Model of the mutation part of `HashMap::insert`: replace the entry with
this key in place, or append a fresh entry when the key is absent. -/
def insertVal (s : Mdc) (k v : String) : Mdc :=
  match s with
  | [] => [(k, v)]
  | e :: rest => if e.1 = k then (k, v) :: rest else e :: insertVal rest k v

/-- Model of the mutation part of `HashMap::remove`: drop the entry with this
key (a HashMap holds at most one, so dropping every match is equivalent). -/
def removeVal (s : Mdc) (k : String) : Mdc :=
  match s with
  | [] => []
  | e :: rest => if e.1 = k then removeVal rest k else e :: removeVal rest k

/-- src/lib.rs `insert`: upsert returning the old value. -/
def insert (k v : String) (s : Mdc) : Option String × Mdc :=
  (mget k s, insertVal s k v)

/-- src/lib.rs `InsertGuard`: key is taken (`Option::take`) on drop. -/
structure InsertGuard where
  key : Option String
  old_value : Option String
  deriving DecidableEq, Repr

/-- src/lib.rs `insert_scoped`: perform the insert, capture the old value. -/
def insert_scoped (k v : String) (s : Mdc) : InsertGuard × Mdc :=
  let r := insert k v s
  (⟨some k, r.1⟩, r.2)

/-- src/lib.rs `extend`: `HashMap::extend`, inserting each entry in order. -/
def extend (es : List (String × String)) (s : Mdc) : Mdc :=
  es.foldl (fun m e => insertVal m e.1 e.2) s

/-- src/lib.rs `ExtendGuard`: the `Vec<(String, Option<String>)>` of captured
previous values, in insertion order. -/
structure ExtendGuard where
  entries : List (String × Option String)
  deriving DecidableEq, Repr

/-- src/lib.rs `extend_scoped`: for each entry in caller order, insert it and
record the value the map held immediately before that insert. -/
def extend_scoped (es : List (String × String)) (s : Mdc) : ExtendGuard × Mdc :=
  match es with
  | [] => (⟨[]⟩, s)
  | (k, v) :: rest =>
    let old := mget k s
    let r := extend_scoped rest (insertVal s k v)
    (⟨(k, old) :: r.1.entries⟩, r.2)

/-- src/lib.rs `get`: apply the callback to the looked-up value. The map is
only borrowed immutably, so the state component passes through. -/
def get {T : Type} (k : String) (f : Option String → T) (s : Mdc) : T × Mdc :=
  (f (mget k s), s)

/-- src/lib.rs `remove`: delete the entry, returning the old value. -/
def remove (k : String) (s : Mdc) : Option String × Mdc :=
  (mget k s, removeVal s k)

/-- src/lib.rs `clear`: `HashMap::clear`. -/
def clear : Mdc → Mdc := fun _ => []

/-- src/lib.rs `iter`: fold the visitor over the current entries; the map is
only borrowed immutably, so the state component passes through. -/
def iter {α : Type} (f : String → String → α → α) (s : Mdc) (a : α) : α × Mdc :=
  (s.foldl (fun acc e => f e.1 e.2 acc) a, s)

/-- Body of `impl Drop for InsertGuard`: `self.key.take().unwrap()` panics
(`none`) when the key was already taken; otherwise restore the old value or
remove the key, leaving the guard with both options taken. -/
def InsertGuard.drop (g : InsertGuard) (s : Mdc) : Option (InsertGuard × Mdc) :=
  match g.key with
  | none => none
  | some k =>
    match g.old_value with
    | some v => some (⟨none, none⟩, (insert k v s).2)
    | none => some (⟨none, none⟩, (remove k s).2)

/-- One step of the `ExtendGuard` drop loop: re-insert the recorded previous
value, or remove the key when none was recorded. -/
def restoreEntry (m : Mdc) (e : String × Option String) : Mdc :=
  match e.2 with
  | some v => insertVal m e.1 v
  | none => removeVal m e.1

/-- Body of `impl Drop for ExtendGuard`: drain the snapshot vector from the
front (forward insertion order), restoring each entry; the drained guard is
left empty. -/
def ExtendGuard.drop (g : ExtendGuard) (s : Mdc) : ExtendGuard × Mdc :=
  (⟨[]⟩, g.entries.foldl restoreEntry s)

/-- Names of the public operations defined by src/lib.rs. -/
def scopedOpNames : List String :=
  ["insert", "insert_scoped", "extend", "extend_scoped", "get", "remove", "clear", "iter"]

/-- Names of the public operations defined by src/global.rs. -/
def globalOpNames : List String :=
  ["insert", "extend", "get", "remove", "clear", "iter"]

/-- src/global.rs state: the `RwLock<HashMap<String, String>>`, with a flag
recording whether the lock is poisoned. -/
structure GlobalMdc where
  poisoned : Bool
  map : Mdc
  deriving DecidableEq, Repr

namespace Global

/-- src/global.rs `insert`: take the write lock (panic when poisoned), then
`HashMap::insert`. -/
def insert (k v : String) (g : GlobalMdc) : Option (Option String × GlobalMdc) :=
  if g.poisoned then none
  else some (mget k g.map, ⟨g.poisoned, insertVal g.map k v⟩)

/-- src/global.rs `extend`: write lock, then `HashMap::extend`. -/
def extend (es : List (String × String)) (g : GlobalMdc) : Option GlobalMdc :=
  if g.poisoned then none
  else some ⟨g.poisoned, es.foldl (fun m e => insertVal m e.1 e.2) g.map⟩

/-- src/global.rs `get`: read lock, then apply the callback to the value. -/
def get {T : Type} (k : String) (f : Option String → T) (g : GlobalMdc) :
    Option (T × GlobalMdc) :=
  if g.poisoned then none else some (f (mget k g.map), g)

/-- src/global.rs `remove`: write lock, then `HashMap::remove`. -/
def remove (k : String) (g : GlobalMdc) : Option (Option String × GlobalMdc) :=
  if g.poisoned then none
  else some (mget k g.map, ⟨g.poisoned, removeVal g.map k⟩)

/-- src/global.rs `clear`: write lock, then `HashMap::clear`. -/
def clear (g : GlobalMdc) : Option GlobalMdc :=
  if g.poisoned then none else some ⟨g.poisoned, []⟩

/-- src/global.rs `iter`: read lock, then fold the visitor over the entries. -/
def iter {α : Type} (f : String → String → α → α) (g : GlobalMdc) (a : α) :
    Option (α × GlobalMdc) :=
  if g.poisoned then none
  else some (g.map.foldl (fun acc e => f e.1 e.2 acc) a, g)

end Global

/-! Helper lemmas about the backing-map primitives. -/

theorem mget_insertVal (k1 k v : String) (s : Mdc) :
    mget k1 (insertVal s k v) = if k1 = k then some v else mget k1 s := by
  induction s with
  | nil =>
    by_cases h : k1 = k
    · subst h; simp [insertVal, mget]
    · simp [insertVal, mget, h, Ne.symm h]
  | cons e rest ih =>
    by_cases he : e.1 = k
    · by_cases h : k1 = k
      · subst h; simp [insertVal, mget, he]
      · simp [insertVal, mget, he, h, Ne.symm h]
    · by_cases hk1 : e.1 = k1
      · have hne : k1 ≠ k := fun hh => he (hk1.trans hh)
        simp [insertVal, mget, he, hk1, hne]
      · simp [insertVal, mget, he, hk1, ih]

theorem mget_removeVal (k1 k : String) (s : Mdc) :
    mget k1 (removeVal s k) = if k1 = k then none else mget k1 s := by
  induction s with
  | nil => simp [removeVal, mget]
  | cons e rest ih =>
    by_cases he : e.1 = k
    · by_cases h : k1 = k
      · subst h; simp [removeVal, he, ih]
      · simp [removeVal, mget, he, h, Ne.symm h, ih]
    · by_cases hk1 : e.1 = k1
      · have hne : k1 ≠ k := fun hh => he (hk1.trans hh)
        simp [removeVal, mget, he, hk1, hne]
      · simp [removeVal, mget, he, hk1, ih]

theorem removeVal_of_absent (k : String) (s : Mdc) (h : mget k s = none) :
    removeVal s k = s := by
  induction s with
  | nil => rfl
  | cons e rest ih =>
    by_cases he : e.1 = k
    · simp [mget, he] at h
    · simp [mget, he] at h
      simp [removeVal, he, ih h]

theorem removeVal_insertVal (k v : String) (s : Mdc) (h : mget k s = none) :
    removeVal (insertVal s k v) k = s := by
  induction s with
  | nil => simp [insertVal, removeVal]
  | cons e rest ih =>
    by_cases he : e.1 = k
    · simp [mget, he] at h
    · simp [mget, he] at h
      simp [insertVal, removeVal, he, ih h]

theorem insertVal_insertVal_restore (k v a : String) (s : Mdc)
    (h : mget k s = some a) : insertVal (insertVal s k v) k a = s := by
  induction s with
  | nil => simp [mget] at h
  | cons e rest ih =>
    obtain ⟨e1, e2⟩ := e
    by_cases he : e1 = k
    · subst he
      simp [mget] at h
      simp [insertVal, h]
    · simp [mget, he] at h
      simp [insertVal, he, ih h]

theorem mget_restoreEntry (k1 : String) (m : Mdc) (e : String × Option String) :
    mget k1 (restoreEntry m e) = if k1 = e.1 then e.2 else mget k1 m := by
  obtain ⟨ek, ev⟩ := e
  cases ev with
  | some v => simp [restoreEntry, mget_insertVal]
  | none => simp [restoreEntry, mget_removeVal]

theorem replay_frame (k : String) (l : List (String × Option String)) (m : Mdc)
    (h : ∀ e ∈ l, e.1 ≠ k) :
    mget k (l.foldl restoreEntry m) = mget k m := by
  induction l generalizing m with
  | nil => rfl
  | cons e rest ih =>
    have he : e.1 ≠ k := h e (List.mem_cons_self _ _)
    have hrest : ∀ x ∈ rest, x.1 ≠ k := fun x hx => h x (List.mem_cons_of_mem _ hx)
    simp only [List.foldl_cons]
    rw [ih _ hrest, mget_restoreEntry]
    simp [Ne.symm he]

theorem replay_congr (l : List (String × Option String)) (m1 m2 : Mdc)
    (h : ∀ k, mget k m1 = mget k m2) (k : String) :
    mget k (l.foldl restoreEntry m1) = mget k (l.foldl restoreEntry m2) := by
  induction l generalizing m1 m2 with
  | nil => exact h k
  | cons e rest ih =>
    simp only [List.foldl_cons]
    refine ih _ _ (fun k1 => ?_)
    rw [mget_restoreEntry, mget_restoreEntry, h k1]

theorem replay_comm (l : List (String × Option String)) (e0 : String × Option String)
    (m : Mdc) (h : ∀ e ∈ l, e.1 ≠ e0.1) (k : String) :
    mget k (l.foldl restoreEntry (restoreEntry m e0)) =
      mget k (restoreEntry (l.foldl restoreEntry m) e0) := by
  induction l generalizing m with
  | nil => rfl
  | cons e rest ih =>
    simp only [List.foldl_cons]
    have he : e.1 ≠ e0.1 := h e (List.mem_cons_self _ _)
    have hrest : ∀ x ∈ rest, x.1 ≠ e0.1 := fun x hx => h x (List.mem_cons_of_mem _ hx)
    have swap : ∀ k1, mget k1 (restoreEntry (restoreEntry m e0) e) =
        mget k1 (restoreEntry (restoreEntry m e) e0) := by
      intro k1
      rw [mget_restoreEntry, mget_restoreEntry, mget_restoreEntry, mget_restoreEntry]
      by_cases h1 : k1 = e.1
      · by_cases h2 : k1 = e0.1
        · exact absurd (h1.symm.trans h2) he
        · simp [h1, h2, he]
      · by_cases h2 : k1 = e0.1
        · simp [h1, h2, Ne.symm he]
        · simp [h1, h2]
    calc mget k (rest.foldl restoreEntry (restoreEntry (restoreEntry m e0) e))
        = mget k (rest.foldl restoreEntry (restoreEntry (restoreEntry m e) e0)) :=
          replay_congr rest _ _ swap k
      _ = mget k (restoreEntry (rest.foldl restoreEntry (restoreEntry m e)) e0) :=
          ih _ hrest

theorem extend_scoped_entries_fst (es : List (String × String)) (s : Mdc) :
    (extend_scoped es s).1.entries.map Prod.fst = es.map Prod.fst := by
  induction es generalizing s with
  | nil => rfl
  | cons e rest ih =>
    obtain ⟨k, v⟩ := e
    simp [extend_scoped, ih]

theorem extend_scoped_snd (es : List (String × String)) (s : Mdc) :
    (extend_scoped es s).2 = extend es s := by
  induction es generalizing s with
  | nil => rfl
  | cons e rest ih =>
    obtain ⟨k, v⟩ := e
    simpa [extend_scoped, extend] using ih (insertVal s k v)

theorem iter_collect (s : Mdc) (l : List (String × String)) :
    (iter (fun a b acc => acc ++ [(a, b)]) s l).1 = l ++ s := by
  induction s generalizing l with
  | nil => simp [iter]
  | cons e rest ih =>
    simp only [iter, List.foldl_cons] at ih ⊢
    rw [ih]
    simp

theorem count_nodup (l : List (String × String)) (e : String × String) (h : l.Nodup) :
    l.count e = if e ∈ l then 1 else 0 := by
  induction l with
  | nil => simp
  | cons x rest ih =>
    simp only [List.nodup_cons] at h
    obtain ⟨hx, hrest⟩ := h
    by_cases hex : e = x
    · subst hex
      simp [List.count_cons, ih hrest, hx]
    · simp [List.count_cons, ih hrest, hex, Ne.symm hex]

/-! Claim theorems. -/

/-- Claim C1: after an insert of value a, acquiring a guard via insert_scoped
with value b makes get yield b, and releasing the guard restores the value the
key had immediately before the scoped insert; in general the release sets the
touched key back to its pre-insert value (removing it when it was absent) and
leaves every other key as it was at release time. Releasing directly after the
acquisition restores the whole store exactly. -/
theorem C1_insert_scoped_restore (s s2 : Mdc) (k v : String) :
    (get k (fun o => o) (insert_scoped k v s).2).1 = some v ∧
    InsertGuard.drop (insert_scoped k v s).1 (insert_scoped k v s).2 =
      some (⟨none, none⟩, s) ∧
    (∀ out, InsertGuard.drop (insert_scoped k v s).1 s2 = some out →
      mget k out.2 = mget k s ∧ ∀ k1, k1 ≠ k → mget k1 out.2 = mget k1 s2) := by
  refine ⟨?_, ?_, ?_⟩
  · simp [get, insert_scoped, insert, mget_insertVal]
  · cases hm : mget k s with
    | some a =>
      simp [insert_scoped, insert, InsertGuard.drop, hm]
      exact insertVal_insertVal_restore k v a s hm
    | none =>
      simp [insert_scoped, insert, InsertGuard.drop, hm, remove]
      exact removeVal_insertVal k v s hm
  · intro out hout
    cases hm : mget k s with
    | some a =>
      have h1 : out = (⟨none, none⟩, insertVal s2 k a) := by
        have := hout
        simp [insert_scoped, insert, InsertGuard.drop, hm] at this
        exact this.symm
      subst h1
      refine ⟨by simp [mget_insertVal, hm], fun k1 hk1 => by simp [mget_insertVal, hk1]⟩
    | none =>
      have h1 : out = (⟨none, none⟩, removeVal s2 k) := by
        have := hout
        simp [insert_scoped, insert, InsertGuard.drop, hm, remove] at this
        exact this.symm
      subst h1
      refine ⟨by simp [mget_removeVal, hm], fun k1 hk1 => by simp [mget_removeVal, hk1]⟩

/-- Witness for C1 at concrete inputs: the guard from inserting b over a is
released on an interfered state; the touched key reverts to a and the foreign
key keeps its release-time value. -/
theorem C1_witness :
    InsertGuard.drop (insert_scoped "k" "b" [("k", "a")]).1 [("k", "b"), ("j", "z")] =
      some (⟨none, none⟩, [("k", "a"), ("j", "z")]) ∧
    mget "k" [("k", "a"), ("j", "z")] = mget "k" [("k", "a")] ∧
    mget "j" [("k", "a"), ("j", "z")] = mget "j" [("k", "b"), ("j", "z")] :=
  ⟨by decide,
   ((C1_insert_scoped_restore [("k", "a")] [("k", "b"), ("j", "z")] "k" "b").2.2
      (⟨none, none⟩, [("k", "a"), ("j", "z")]) (by decide)).1,
   ((C1_insert_scoped_restore [("k", "a")] [("k", "b"), ("j", "z")] "k" "b").2.2
      (⟨none, none⟩, [("k", "a"), ("j", "z")]) (by decide)).2 "j" (by decide)⟩

/-- Claim C3: with distinct keys, a batch of overrides is visible while the
guard is held and fully undone by the release: foo reverts to a and fizz is
removed. -/
theorem C3_batch_distinct_scenario :
    (get "foo" (fun o => o)
      (extend_scoped [("foo", "b"), ("fizz", "buzz")] (insert "foo" "a" []).2).2).1 =
        some "b" ∧
    (get "fizz" (fun o => o)
      (extend_scoped [("foo", "b"), ("fizz", "buzz")] (insert "foo" "a" []).2).2).1 =
        some "buzz" ∧
    (get "foo" (fun o => o)
      (ExtendGuard.drop
        (extend_scoped [("foo", "b"), ("fizz", "buzz")] (insert "foo" "a" []).2).1
        (extend_scoped [("foo", "b"), ("fizz", "buzz")] (insert "foo" "a" []).2).2).2).1 =
        some "a" ∧
    (get "fizz" (fun o => o)
      (ExtendGuard.drop
        (extend_scoped [("foo", "b"), ("fizz", "buzz")] (insert "foo" "a" []).2).1
        (extend_scoped [("foo", "b"), ("fizz", "buzz")] (insert "foo" "a" []).2).2).2).1 =
        none := by
  refine ⟨by decide, by decide, by decide, by decide⟩

/-- Claim C4: insert is an upsert that returns the previous value of the key,
none when the key was absent, and a subsequent get yields the new value. -/
theorem C4_insert_upsert (s : Mdc) (k v : String) :
    (mget k s = none → (insert k v s).1 = none) ∧
    (∀ v0, mget k s = some v0 → (insert k v s).1 = some v0) ∧
    (get k (fun o => o) (insert k v s).2).1 = some v := by
  refine ⟨fun h => h, fun v0 h => h, ?_⟩
  simp [get, insert, mget_insertVal]

/-- Witness for C4: absent key returns none; present key returns the old
value; get sees the new value. -/
theorem C4_witness :
    (insert "k" "b" []).1 = none ∧
    (insert "k" "b" [("k", "a")]).1 = some "a" ∧
    (get "k" (fun o => o) (insert "k" "b" [("k", "a")]).2).1 = some "b" :=
  ⟨(C4_insert_upsert [] "k" "b").1 (by decide),
   (C4_insert_upsert [("k", "a")] "k" "b").2.1 "a" (by decide),
   (C4_insert_upsert [("k", "a")] "k" "b").2.2⟩

/-- Claim C5: the guard built by extend_scoped carries one snapshot entry per
supplied pair, in caller order; the recorded previous value of the i-th entry
is the value its key had after the first i inserts of the same batch were
applied to the pre-call store, so later occurrences of a repeated key record
the value installed by earlier occurrences. -/
theorem C5_snapshot_sequence (es : List (String × String)) (s : Mdc) (i : Nat) :
    ((extend_scoped es s).1.entries)[i]? =
      (es[i]?).map fun e => (e.1, mget e.1 (extend (es.take i) s)) := by
  induction es generalizing s i with
  | nil => simp [extend_scoped]
  | cons e rest ih =>
    obtain ⟨k, v⟩ := e
    cases i with
    | zero => simp [extend_scoped, extend]
    | succ n => simpa [extend_scoped, extend] using ih (insertVal s k v) n

/-- Counterexample to C2: the drop loop drains the snapshot vector from the
front, i.e. in forward insertion order. With the key k bound to x before the
batch, the batch [(k, a), (k, b)] snapshots [some x, some a]; the forward
replay ends with the re-insert of a, so the released store maps k to a, not to
the pre-batch x. -/
theorem C2_repeated_key_counterexample :
    mget "k" (ExtendGuard.drop (extend_scoped [("k", "a"), ("k", "b")] [("k", "x")]).1
        (extend_scoped [("k", "a"), ("k", "b")] [("k", "x")]).2).2 = some "a" ∧
    mget "k" [("k", "x")] = some "x" ∧
    (some "a" : Option String) ≠ some "x" := by
  refine ⟨by decide, by decide, by decide⟩

/-- Claim C2 as amended: releasing the guard restores the pre-batch store for
every batch whose keys are distinct; the release replays the snapshots in
forward insertion order, so a key repeated within one batch ends at the value
recorded by its last snapshot entry rather than at the pre-batch value. -/
theorem C2_batch_restore_distinct_keys (es : List (String × String)) :
    ∀ (s : Mdc) (k : String), (es.map Prod.fst).Nodup →
      mget k (ExtendGuard.drop (extend_scoped es s).1 (extend_scoped es s).2).2 =
        mget k s := by
  induction es with
  | nil => intro s k _; rfl
  | cons e rest ih =>
    intro s k h
    obtain ⟨k0, v0⟩ := e
    simp only [List.map_cons, List.nodup_cons] at h
    obtain ⟨hk0, hrest⟩ := h
    show mget k (((k0, mget k0 s) :: (extend_scoped rest (insertVal s k0 v0)).1.entries).foldl
        restoreEntry (extend_scoped rest (insertVal s k0 v0)).2) = mget k s
    rw [List.foldl_cons]
    have hkeys : ∀ x ∈ (extend_scoped rest (insertVal s k0 v0)).1.entries,
        x.1 ≠ (k0, mget k0 s).1 := by
      intro x hx hEq
      have hmem : x.1 ∈ (extend_scoped rest (insertVal s k0 v0)).1.entries.map Prod.fst :=
        List.mem_map_of_mem _ hx
      rw [extend_scoped_entries_fst] at hmem
      have hEq2 : x.1 = k0 := hEq
      exact hk0 (hEq2 ▸ hmem)
    rw [replay_comm _ _ _ hkeys k, mget_restoreEntry]
    have hih : mget k ((extend_scoped rest (insertVal s k0 v0)).1.entries.foldl restoreEntry
        (extend_scoped rest (insertVal s k0 v0)).2) = mget k (insertVal s k0 v0) :=
      ih (insertVal s k0 v0) k hrest
    rw [hih, mget_insertVal]
    by_cases hk : k = k0
    · simp [hk]
    · simp [hk]

/-- Witness for the amended C2: a two-entry batch with distinct keys is fully
undone by the release. -/
theorem C2_witness :
    (([("x", "1"), ("y", "2")].map Prod.fst).Nodup) ∧
    mget "x" (ExtendGuard.drop (extend_scoped [("x", "1"), ("y", "2")] [("j", "w")]).1
        (extend_scoped [("x", "1"), ("y", "2")] [("j", "w")]).2).2 =
      mget "x" [("j", "w")] :=
  ⟨by decide, C2_batch_restore_distinct_keys [("x", "1"), ("y", "2")] [("j", "w")] "x" (by decide)⟩

/-- Counterexample to C6: src/global.rs defines no scoped operations, so the
global operation surface is a strict subset of the thread-local one. -/
theorem C6_missing_scoped_ops :
    ("insert_scoped" ∈ scopedOpNames ∧ "insert_scoped" ∉ globalOpNames) ∧
    ("extend_scoped" ∈ scopedOpNames ∧ "extend_scoped" ∉ globalOpNames) := by
  refine ⟨⟨by decide, by decide⟩, ⟨by decide, by decide⟩⟩

/-- Claim C6 as amended: the Shared Store offers insert, extend, get, remove,
clear and iter with the same per-operation semantics as the Scoped Store, the
only differences being the process-wide lock-protected backing map; it does
not offer the scoped variants insert_scoped and extend_scoped. -/
theorem C6_global_ops_agree (m : Mdc) (k v : String) (es : List (String × String))
    (α : Type) (f : String → String → α → α) (a : α) (T : Type) (g : Option String → T) :
    Global.insert k v ⟨false, m⟩ = some ((insert k v m).1, ⟨false, (insert k v m).2⟩) ∧
    Global.extend es ⟨false, m⟩ = some ⟨false, extend es m⟩ ∧
    Global.get k g ⟨false, m⟩ = some ((get k g m).1, ⟨false, (get k g m).2⟩) ∧
    Global.remove k ⟨false, m⟩ = some ((remove k m).1, ⟨false, (remove k m).2⟩) ∧
    Global.clear ⟨false, m⟩ = some ⟨false, clear m⟩ ∧
    Global.iter f ⟨false, m⟩ a = some ((iter f m a).1, ⟨false, (iter f m a).2⟩) ∧
    globalOpNames = scopedOpNames.filter
      (fun n => !(n == "insert_scoped" || n == "extend_scoped")) := by
  refine ⟨rfl, rfl, rfl, rfl, rfl, rfl, by decide⟩

/-- Counterexample to C7: a SingleGuard whose drop body runs a second time
calls unwrap on the already-taken key and panics (modelled as none) instead of
being a no-op. -/
theorem C7_double_release_counterexample :
    InsertGuard.drop (insert_scoped "k" "v" []).1 (insert_scoped "k" "v" []).2 =
      some (⟨none, none⟩, []) ∧
    InsertGuard.drop (⟨none, none⟩ : InsertGuard) [] = none :=
  ⟨by decide, rfl⟩

/-- Claim C7 as amended: after its first release a guard never mutates the
store again; running the BatchGuard release a second time is a no-op on the
drained guard, while running the SingleGuard release a second time panics on
the taken key without touching the store. -/
theorem C7_release_once (g : ExtendGuard) (s s2 : Mdc) (g1 : InsertGuard)
    (out : InsertGuard × Mdc) (h : InsertGuard.drop g1 s = some out) :
    ExtendGuard.drop (ExtendGuard.drop g s).1 (ExtendGuard.drop g s).2 =
      ((ExtendGuard.drop g s).1, (ExtendGuard.drop g s).2) ∧
    InsertGuard.drop out.1 s2 = none := by
  constructor
  · rfl
  · have hout : out.1 = (⟨none, none⟩ : InsertGuard) := by
      cases g1 with
      | mk key old =>
        cases key with
        | none => simp [InsertGuard.drop] at h
        | some k =>
          cases old with
          | some v =>
            have heq : ((⟨none, none⟩ : InsertGuard), (insert k v s).2) = out :=
              Option.some.inj h
            rw [← heq]
          | none =>
            have heq : ((⟨none, none⟩ : InsertGuard), (remove k s).2) = out :=
              Option.some.inj h
            rw [← heq]
    rw [hout]
    rfl

/-- Witness for the amended C7 at concrete guards. -/
theorem C7_witness :
    InsertGuard.drop (⟨some "k", none⟩ : InsertGuard) [] =
      some ((⟨none, none⟩ : InsertGuard), []) ∧
    ExtendGuard.drop (ExtendGuard.drop ⟨[("a", some "b")]⟩ []).1
        (ExtendGuard.drop ⟨[("a", some "b")]⟩ []).2 =
      ((ExtendGuard.drop ⟨[("a", some "b")]⟩ []).1,
        (ExtendGuard.drop ⟨[("a", some "b")]⟩ []).2) ∧
    InsertGuard.drop ((⟨none, none⟩ : InsertGuard), ([] : Mdc)).1 [("z", "y")] = none :=
  ⟨rfl,
   (C7_release_once ⟨[("a", some "b")]⟩ [] [("z", "y")] ⟨some "k", none⟩
      ((⟨none, none⟩ : InsertGuard), []) rfl).1,
   (C7_release_once ⟨[("a", some "b")]⟩ [] [("z", "y")] ⟨some "k", none⟩
      ((⟨none, none⟩ : InsertGuard), []) rfl).2⟩

/-- Claim C8: no operation returns a distinct error value. A missing key is
the normal none outcome and leaves the store untouched; on the Shared Store a
poisoned lock makes every operation panic (none, the fatal abort), and an
unpoisoned lock lets them all return normally. -/
theorem C8_error_model (s : Mdc) (k v : String) (m : Mdc) (g : GlobalMdc) :
    (mget k s = none → remove k s = (none, s)) ∧
    (g.poisoned = true →
      Global.insert k v g = none ∧ Global.get k (fun o => o) g = none ∧
      Global.remove k g = none ∧ Global.clear g = none ∧
      Global.extend [(k, v)] g = none ∧ Global.iter (fun _ _ n => n + 1) g 0 = none) ∧
    (Global.insert k v ⟨false, m⟩).isSome = true ∧
    (Global.remove k ⟨false, m⟩).isSome = true ∧
    (Global.get k (fun o => o) ⟨false, m⟩).isSome = true := by
  refine ⟨?_, ?_, rfl, rfl, rfl⟩
  · intro h
    simp [remove, h, removeVal_of_absent k s h]
  · intro hp
    simp [Global.insert, Global.get, Global.remove, Global.clear, Global.extend,
      Global.iter, hp]

/-- Witness for C8: removing an absent key reports none and changes nothing; a
poisoned global lock panics the operation. -/
theorem C8_witness :
    remove "k" [("a", "b")] = (none, [("a", "b")]) ∧
    Global.insert "k" "v" ⟨true, []⟩ = none :=
  ⟨(C8_error_model [("a", "b")] "k" "v" [] ⟨true, []⟩).1 (by decide),
   ((C8_error_model [("a", "b")] "k" "v" [] ⟨true, []⟩).2.1 rfl).1⟩

/-- Claim C9: one call to iter presents each entry of the store to the visitor
exactly once: the sequence of visited pairs counts every present entry once
and any absent pair zero times. -/
theorem C9_iter_visits_once (s : Mdc) (h : (s.map Prod.fst).Nodup) (e : String × String) :
    ((iter (fun a b acc => acc ++ [(a, b)]) s []).1).count e = if e ∈ s then 1 else 0 := by
  have hs : (iter (fun a b acc => acc ++ [(a, b)]) s []).1 = s := by
    simpa using iter_collect s []
  rw [hs]
  exact count_nodup s e h.of_map

/-- Witness for C9 on a two-entry store. -/
theorem C9_witness :
    (([("a", "1"), ("b", "2")].map Prod.fst).Nodup) ∧
    ((iter (fun a b acc => acc ++ [(a, b)]) [("a", "1"), ("b", "2")] []).1).count ("a", "1") =
      if ("a", "1") ∈ [("a", "1"), ("b", "2")] then 1 else 0 :=
  ⟨by decide, C9_iter_visits_once [("a", "1"), ("b", "2")] (by decide) ("a", "1")⟩

/-- Claim C10: the read-only operations get and iter return the store mapping
unchanged, on the Scoped Store and (under an unpoisoned lock) on the Shared
Store. -/
theorem C10_read_ops_pure (k : String) (T : Type) (f : Option String → T) (s : Mdc)
    (α : Type) (vf : String → String → α → α) (a : α) (m : Mdc) :
    (get k f s).2 = s ∧ (iter vf s a).2 = s ∧
    Global.get k f ⟨false, m⟩ = some ((get k f m).1, ⟨false, m⟩) ∧
    Global.iter vf ⟨false, m⟩ a = some ((iter vf m a).1, ⟨false, m⟩) :=
  ⟨rfl, rfl, rfl, rfl⟩

end LogMdc
